import Mathlib

/-!
Shallow embedding of the site generator `generate.py` (osdc-site-generator).

Pure data flow is modelled directly; the I/O surface is made explicit:
  * the directory listing consumed by `read_json_files` becomes a list of
    (filename, parsed-content) pairs;
  * the two external fetchers (`forem.fetch`, `github.get_user_info`) become
    function parameters returning `Option` (with `none` standing for a falsy
    Python value, i.e. "not found");
  * `time.sleep(0.2)` and each external call are recorded in an explicit
    event trace so that "zero fetches / no pause" claims are statable;
  * a fatal path (`raise`, `exit(msg)`, an uncaught `KeyError`) becomes
    `Except.error msg`.

Python regular-expression details are preserved: in the patterns of
`check_project` the unescaped `.` of `github.com` / `foss.heptapod.net`
matches any character except a newline, and `[^/]+` is a nonempty run of
non-slash characters.
-/

namespace OsdcGen

/-- Results of fallible steps are compared concretely in the examples below. -/
instance instDecEqExcept {ε α : Type} [DecidableEq ε] [DecidableEq α] :
    DecidableEq (Except ε α) := fun x y =>
  match x, y with
  | .ok a, .ok b =>
    if h : a = b then isTrue (h ▸ rfl) else isFalse fun hh => h (Except.ok.inj hh)
  | .error a, .error b =>
    if h : a = b then isTrue (h ▸ rfl) else isFalse fun hh => h (Except.error.inj hh)
  | .ok _, .error _ => isFalse fun hh => Except.noConfusion hh
  | .error _, .ok _ => isFalse fun hh => Except.noConfusion hh

/-- Test `listLeads pat l` is true when `pat` is an initial run of `l`
(used to model literal substring matching in the `re.sub` calls). -/
def listLeads : List Char → List Char → Bool
  | [], _ => true
  | _ :: _, [] => false
  | a :: as, b :: bs => a == b && listLeads as bs

/-- Test `listHas needle hay` is true when `needle` occurs contiguously in `hay`. -/
def listHas : List Char → List Char → Bool
  | needle, [] => needle.isEmpty
  | needle, c :: cs => listLeads needle (c :: cs) || listHas needle cs

/-- Substring test on strings (models Python `needle in hay`). -/
def strContains (hay needle : String) : Bool :=
  listHas needle.data hay.data

/-- Models Python `s.endswith(t)`. -/
def strEnds (s t : String) : Bool :=
  listLeads t.data.reverse s.data.reverse

/-- One step of matching the literal part of the `check_project` patterns:
a pattern character `.` matches any input character except a newline (Python
`re` without DOTALL), every other pattern character matches only itself.
Returns the unmatched remainder of the input. -/
def matchLit : List Char → List Char → Option (List Char)
  | [], rest => some rest
  | _ :: _, [] => none
  | p :: ps, c :: cs =>
    if (p == '.' && c != '\n') || p == c then matchLit ps cs else none

/-- Split a character list at every `/` (the `[^/]+` groups of the patterns
cannot cross a slash, so the tail of the URL must split exactly). -/
def splitSlash : List Char → List (List Char)
  | [] => [[]]
  | c :: cs =>
    let r := splitSlash cs
    if c == '/' then [] :: r
    else
      match r with
      | [] => [[c]]
      | h :: t => (c :: h) :: t

/-- The tail of the URL matches `([^/]+)/([^/]+)$`: exactly two nonempty
slash-free segments. -/
def seg2 (cs : List Char) : Option (String × String) :=
  match splitSlash cs with
  | [a, b] => if a.isEmpty || b.isEmpty then none else some (String.mk a, String.mk b)
  | _ => none

/-- The tail of the URL matches `([^/]+)$`: one nonempty slash-free segment. -/
def seg1 (cs : List Char) : Option String :=
  match splitSlash cs with
  | [a] => if a.isEmpty then none else some (String.mk a)
  | _ => none

/-- Literal part of `^https://github.com/` (the `.` is a regex wildcard). -/
def githubHost : List Char := "https://github.com/".data

/-- Literal part of `^https://foss.heptapod.net/` (both `.` are wildcards). -/
def heptapodHost : List Char := "https://foss.heptapod.net/".data

/-- Function `check_project` from generate.py: try the three patterns in order,
first match wins; `none` models the `(None, None)` result. -/
def check_project (url : String) : Option (String × String) :=
  match (matchLit githubHost url.data).bind seg2 with
  | some ab => some ("github_repo", ab.2)
  | none =>
    match (matchLit heptapodHost url.data).bind seg2 with
    | some ab => some ("heptapod_repo", ab.2)
    | none =>
      match (matchLit githubHost url.data).bind seg1 with
      | some owner => some ("github_organization", owner)
      | none => none

example : check_project "https://github.com/alice/tool" = some ("github_repo", "tool") := by decide
example : check_project "https://github.com/alice" = some ("github_organization", "alice") := by decide
example : check_project "https://foss.heptapod.net/o/r" = some ("heptapod_repo", "r") := by decide
example : check_project "https://example.com/not-a-repo" = none := by decide
example : check_project "https://github,com/x/y" = some ("github_repo", "y") := by decide
example : check_project "https://github.com/a/b/c" = none := by decide
example : check_project "https://github.com//x" = none := by decide

/-- The enrichment blob fetched by `forem.fetch` for a post.  The generator
only ever reads its `url`, `title`, `description`, `published_at` fields (in
`collect_posts`), so the blob is modelled by exactly those. -/
structure Article where
  url : String := ""
  title : String := ""
  description : String := ""
  published_at : String := ""
deriving DecidableEq

/-- A post descriptor from an input JSON file.  `details` distinguishes the
three states of the Python dict entry: key absent (`none`), key present with
a falsy value (`some none`), key present with a truthy blob (`some (some a)`). -/
structure Post where
  url : String
  title : String := ""
  published_at : String := ""
  details : Option (Option Article) := none
deriving DecidableEq

/-- Opaque profile blob returned by `github.get_user_info`; its contents are
never inspected by generate.py, so it is modelled as an opaque string. -/
abbrev GhData := String

/-- A person record (mentor or participant).  Optional JSON keys are `Option`
fields; `gh` is the profile-enrichment blob attached by `update_github_data`. -/
structure Person where
  github : String
  name : String := ""
  posts : Option (List Post) := none
  projects : Option (List String) := none
  gh : Option GhData := none
deriving DecidableEq

/-- A structured project entry produced by `check_projects`. -/
structure Project where
  url : String
  name : String
deriving DecidableEq

/-- Inner loop of `check_projects` over one person's URL list; the error is
the message passed to `exit(...)` in the source. -/
def check_person_projects (p : Person) : List String → Except String (List Project)
  | [] => .ok []
  | url :: rest =>
    match check_project url with
    | none =>
      .error ("Invalid project '" ++ url ++ "' by " ++ p.name ++
        " github='" ++ p.github ++ "'")
    | some r =>
      (check_person_projects p rest).map (fun ps => { url := url, name := r.2 } :: ps)

/-- Function `check_projects` from generate.py: people without a `projects` key are
skipped; the structured entries of every person are accumulated in order into
the returned flat list; an unrecognized URL aborts via `exit(msg)`, modelled
as `Except.error msg`. -/
def check_projects : List Person → Except String (List Project)
  | [] => .ok []
  | p :: ps =>
    match p.projects with
    | none => check_projects ps
    | some urls =>
      match check_person_projects p urls with
      | .error e => .error e
      | .ok prj =>
        match check_projects ps with
        | .error e => .error e
        | .ok rest => .ok (prj ++ rest)

/-- One entry of the explicit effect trace of an enrichment pass:
`fetch k` is a call to the external service for key `k`, and `sleep k` is the
`time.sleep(0.2)` executed in the cache-miss branch for key `k` (the Python
call takes no key; the label records which loop iteration slept). -/
inductive FetchEvent
  | fetch (key : String)
  | sleep (key : String)
deriving DecidableEq

/-- Result of an enrichment pass: the updated records, the cache that
`save_cache` would persist, and the trace of external effects.  `β` is the
type of cached values. -/
structure EnrichRun (β : Type) where
  people : List Person
  cache : List (String × β)
  events : List FetchEvent
deriving DecidableEq

/-- Inner loop of `update_devto_posts` over one person's post list: on a
cache miss the blob is fetched (a falsy result is cached as-is) and the pass
sleeps; either way `page['details'] = cache[url]` is assigned. -/
def update_devto_pages (fa : String → Option Article) :
    List (String × Option Article) → List Post →
      List Post × List (String × Option Article) × List FetchEvent
  | cache, [] => ([], cache, [])
  | cache, page :: rest =>
    match cache.lookup page.url with
    | some v =>
      let r := update_devto_pages fa cache rest
      ({ page with details := some v } :: r.1, r.2.1, r.2.2)
    | none =>
      let v := fa page.url
      let r := update_devto_pages fa ((page.url, v) :: cache) rest
      ({ page with details := some v } :: r.1, r.2.1,
        .fetch page.url :: .sleep page.url :: r.2.2)

/-- Function `update_devto_posts` from generate.py, with the loaded cache and the
external fetcher made explicit.  People without a `posts` key are skipped. -/
def update_devto_posts (fa : String → Option Article) :
    List (String × Option Article) → List Person → EnrichRun (Option Article)
  | cache, [] => ⟨[], cache, []⟩
  | cache, p :: rest =>
    match p.posts with
    | none =>
      let r := update_devto_posts fa cache rest
      ⟨p :: r.people, r.cache, r.events⟩
    | some pages =>
      let t := update_devto_pages fa cache pages
      let r := update_devto_posts fa t.2.1 rest
      ⟨{ p with posts := some t.1 } :: r.people, r.cache, t.2.2 ++ r.events⟩

/-- Function `update_github_data` from generate.py: on a cache miss the profile is
fetched; a falsy result (`none`) skips the record entirely (`continue`) —
no caching, no sleep, no `gh` assignment; a truthy result is cached and the
pass sleeps.  In all non-skipped cases `person['gh'] = cache[github_id]`. -/
def update_github_data (fg : String → Option GhData) :
    List (String × GhData) → List Person → EnrichRun GhData
  | cache, [] => ⟨[], cache, []⟩
  | cache, p :: rest =>
    match cache.lookup p.github with
    | some v =>
      let r := update_github_data fg cache rest
      ⟨{ p with gh := some v } :: r.people, r.cache, r.events⟩
    | none =>
      match fg p.github with
      | none =>
        let r := update_github_data fg cache rest
        ⟨p :: r.people, r.cache, .fetch p.github :: r.events⟩
      | some d =>
        let r := update_github_data fg ((p.github, d) :: cache) rest
        ⟨{ p with gh := some d } :: r.people, r.cache,
          .fetch p.github :: .sleep p.github :: r.events⟩

/-- Models Python `str.lower()` on the ASCII filenames and handles the
generator works with (`Char.toLower` lowercases exactly the ASCII range). -/
def strLower (s : String) : String := String.mk (s.data.map Char.toLower)

/-- The content of one input JSON file, as parsed by `json.load`.  Only the
fields the loader inspects are modelled; `github = none` is an absent key. -/
structure RawPerson where
  github : Option String := none
  name : String := ""
deriving DecidableEq

/-- Python `filename[:-5]`: the filename minus its last five characters. -/
def stem (f : String) : String := String.mk (f.data.take (f.data.length - 5))

/-- Function `read_json_files` from generate.py over an explicit directory listing of
(filename, parsed content) pairs, in listing order.  Each `raise` becomes an
`Except.error` carrying the raised message. -/
def read_json_files : List (String × RawPerson) → Except String (List RawPerson)
  | [] => .ok []
  | (fname, person) :: rest =>
    if fname = ".gitkeep" then read_json_files rest
    else if strEnds fname ".json" = false then
      .error "file does not end with .json"
    else if fname ≠ strLower fname then
      .error ("filename " ++ fname ++ " should be all lower-case")
    else
      match person.github with
      | none => .error ("github field is missing from " ++ fname)
      | some g =>
        if strLower g ≠ stem fname then
          .error ("value of github fields '" ++ g ++
            "' is not the same as the filename '" ++ fname ++ "'")
        else (read_json_files rest).map (fun ps => person :: ps)

/-- One element of the flat list built by `collect_posts`: either an
enrichment blob tagged with its author, or the fallback object. -/
structure TaggedPost where
  url : String
  title : String
  description : String
  published_at : String
  author : Person
deriving DecidableEq

/-- The `KeyError` raised by `post['details']` when the key is absent. -/
def keyErrorDetails : String := "KeyError: 'details'"

/-- Body of the `collect_posts` loop for one person's posts: an absent
`details` key raises `KeyError`; a falsy value takes the fallback branch;
a truthy blob is emitted with the author back-reference attached. -/
def tag_posts_person (p : Person) : List Post → Except String (List TaggedPost)
  | [] => .ok []
  | post :: rest =>
    match post.details with
    | none => .error keyErrorDetails
    | some none =>
      (tag_posts_person p rest).map
        (fun ts => ⟨post.url, post.title, "", post.published_at, p⟩ :: ts)
    | some (some art) =>
      (tag_posts_person p rest).map
        (fun ts => ⟨art.url, art.title, art.description, art.published_at, p⟩ :: ts)

/-- The flat pre-sort list of `collect_posts` (people without a `posts` key
are skipped; everyone else contributes their posts in order). -/
def tag_posts : List Person → Except String (List TaggedPost)
  | [] => .ok []
  | p :: ps =>
    match p.posts with
    | none => tag_posts ps
    | some posts =>
      match tag_posts_person p posts with
      | .error e => .error e
      | .ok a =>
        match tag_posts ps with
        | .error e => .error e
        | .ok b => .ok (a ++ b)

/-- Code-point lexicographic order on character lists; this is exactly how
Python compares the `published_at` strings used as sort keys. -/
def listLe : List Char → List Char → Bool
  | [], _ => true
  | _ :: _, [] => false
  | a :: as, b :: bs => if a == b then listLe as bs else decide (a.toNat < b.toNat)

/-- The sort relation of `posts.sort(key=..., reverse=True)`: `a` may come
before `b` when `b`'s timestamp is at most `a`'s (descending order). -/
def postDesc (a b : TaggedPost) : Prop :=
  listLe b.published_at.data a.published_at.data = true

instance : DecidableRel postDesc := fun _ _ => instDecidableEqBool _ _

/-- Python `list.sort(key=..., reverse=True)` is the stable descending sort
by the key (CPython documents that `reverse=True` preserves the original
order of equal keys).  A stable sort with respect to a total preorder is
extensionally unique, so it is modelled by stable insertion sort. -/
def sortPosts (l : List TaggedPost) : List TaggedPost := l.insertionSort postDesc

/-- Function `collect_posts` from generate.py: flatten, then stable descending sort. -/
def collect_posts (people : List Person) : Except String (List TaggedPost) :=
  (tag_posts people).map sortPosts

/-- Literal `<h1>` as matched by `re.sub(r'<h1>(.*?)</h1>', '', content)`. -/
def openH1 : List Char := "<h1>".data

/-- Literal `</h1>`, the closing part of the first substitution pattern. -/
def closeH1 : List Char := "</h1>".data

/-- Literal `<h2>`, the pattern of the second substitution. -/
def openH2 : List Char := "<h2>".data

/-- The replacement text of the second substitution. -/
def h2Repl : List Char := "<h2 class=\"title\">".data

/-- The non-greedy `(.*?)</h1>` part: scan forward for the nearest `</h1>`,
failing at a newline (`.` does not match `\n`) or at the end of the input;
on success return the input after the closing tag. -/
def findClose : List Char → Option (List Char)
  | [] => none
  | c :: cs =>
    if listLeads closeH1 (c :: cs) then some ((c :: cs).drop 5)
    else if c == '\n' then none
    else findClose cs

theorem listLeads_length {a b : List Char} (h : listLeads a b = true) :
    a.length ≤ b.length := by
  induction a generalizing b with
  | nil => exact Nat.zero_le _
  | cons x xs ih =>
    cases b with
    | nil => simp [listLeads] at h
    | cons y ys =>
      simp only [listLeads, Bool.and_eq_true] at h
      simpa using ih h.2

theorem findClose_length {l r : List Char} (h : findClose l = some r) :
    r.length + 5 ≤ l.length := by
  induction l with
  | nil => simp [findClose] at h
  | cons c cs ih =>
    unfold findClose at h
    by_cases h1 : listLeads closeH1 (c :: cs) = true
    · rw [if_pos h1] at h
      have hlen : closeH1.length ≤ (c :: cs).length := listLeads_length h1
      have h5 : (5 : ℕ) ≤ (c :: cs).length := hlen
      cases h
      simp only [List.length_drop]
      omega
    · rw [if_neg h1] at h
      by_cases h2 : (c == '\n') = true
      · rw [if_pos h2] at h; cases h
      · rw [if_neg h2] at h
        have := ih h
        simp only [List.length_cons]
        omega

/-- Models `re.sub` with pattern `<h1>(.*?)</h1>` and empty replacement:
scan left to right; at each
position where `<h1>` starts and a same-line `</h1>` follows, drop the whole
match and continue after it; otherwise emit the character and move on.
This removes every such heading, not only the first (`re.sub` has no count
argument in the source). -/
def subH1 (l : List Char) : List Char :=
  match l with
  | [] => []
  | c :: cs =>
    if listLeads openH1 (c :: cs) then
      match h : findClose ((c :: cs).drop 4) with
      | some rest => subH1 rest
      | none => c :: subH1 cs
    else c :: subH1 cs
termination_by l.length
decreasing_by
  · have h5 := findClose_length h
    simp only [List.drop_succ_cons, List.length_cons, List.length_drop] at h5 ⊢
    omega
  · simp only [List.length_cons]; omega
  · simp only [List.length_cons]; omega

/-- Models `re.sub` replacing `<h2>` with the classed tag: replace every literal
occurrence, continuing after the replaced text. -/
def subH2 (l : List Char) : List Char :=
  match l with
  | [] => []
  | c :: cs =>
    if listLeads openH2 (c :: cs) then h2Repl ++ subH2 (cs.drop 3)
    else c :: subH2 cs
termination_by l.length
decreasing_by
  · simp only [List.length_cons, List.length_drop]; omega
  · simp only [List.length_cons]; omega

/-- The README post-processing applied in `generate_html` to the HTML
produced by the Markdown converter: h1 removal, then h2 class tagging. -/
def readme_transform (content : String) : String :=
  String.mk (subH2 (subH1 content.data))

example : readme_transform "<h1>Title</h1><h2>Sub</h2>" = "<h2 class=\"title\">Sub</h2>" := by
  simp [readme_transform, subH1, subH2, findClose, listLeads, openH1, closeH1, openH2, h2Repl]

example : readme_transform "<h1>a</h1>X<h1>b</h1>" = "X" := by
  simp [readme_transform, subH1, subH2, findClose, listLeads, openH1, closeH1, openH2, h2Repl]

/-! ## Claim C1 -/

/-- C1: the claim says every URL matching none of the three literal shapes
yields `(None, None)`.  The code instead matches patterns in which the dots
of `github.com` are unescaped regex wildcards, so the non-shape URL
`https://github,com/x/y` is classified as a github repo.  The first conjunct
shows the literal shape behaving as claimed; the second is the failing
input. -/
theorem claim_C1_regex_dot_unescaped :
    check_project "https://github.com/alice/tool" = some ("github_repo", "tool") ∧
    check_project "https://github,com/x/y" = some ("github_repo", "y") := by
  decide

/-! ## Claim C2 -/

/-- The error message `check_projects` aborts with (`exit(...)` in source). -/
def invalidProjectMsg (p : Person) (url : String) : String :=
  "Invalid project '" ++ url ++ "' by " ++ p.name ++ " github='" ++ p.github ++ "'"

theorem check_person_projects_ok {p : Person} {urls : List String}
    (h : ∀ u ∈ urls, (check_project u).isSome) :
    ∃ l, check_person_projects p urls = .ok l := by
  induction urls with
  | nil => exact ⟨[], rfl⟩
  | cons u rest ih =>
    have hu : (check_project u).isSome := h u (List.mem_cons_self u rest)
    obtain ⟨r, hr⟩ := Option.isSome_iff_exists.mp hu
    obtain ⟨l, hl⟩ := ih fun v hv => h v (List.mem_cons_of_mem u hv)
    exact ⟨{ url := u, name := r.2 } :: l, by
      simp [check_person_projects, hr, hl, Except.map]⟩

theorem check_person_projects_err {p : Person} {us1 us2 : List String} {u : String}
    (h1 : ∀ v ∈ us1, (check_project v).isSome) (h2 : check_project u = none) :
    check_person_projects p (us1 ++ u :: us2) = .error (invalidProjectMsg p u) := by
  induction us1 with
  | nil => simp [check_person_projects, h2, invalidProjectMsg]
  | cons v rest ih =>
    have hv : (check_project v).isSome := h1 v (List.mem_cons_self v rest)
    obtain ⟨r, hr⟩ := Option.isSome_iff_exists.mp hv
    have := ih fun w hw => h1 w (List.mem_cons_of_mem v hw)
    simp [check_person_projects, hr, this, Except.map]

theorem check_projects_prepend_err {pre rest : List Person} {e : String}
    (hok : ∀ q ∈ pre, ∀ url ∈ q.projects.getD [], (check_project url).isSome)
    (herr : check_projects rest = .error e) :
    check_projects (pre ++ rest) = .error e := by
  induction pre with
  | nil => simpa using herr
  | cons q qs ih =>
    have hqs := ih fun q' hq' => hok q' (List.mem_cons_of_mem q hq')
    cases hq : q.projects with
    | none => simpa [check_projects, hq] using hqs
    | some urls =>
      have hurls : ∀ u ∈ urls, (check_project u).isSome := by
        intro u hu
        have := hok q (List.mem_cons_self q qs) u
        rw [hq] at this
        exact this hu
      obtain ⟨l, hl⟩ := check_person_projects_ok (p := q) hurls
      simp [check_projects, hq, hl, hqs]

/-- C2: for any record list whose first unrecognized project URL is `u`,
owned by record `p` (all URLs processed before it are recognized),
`check_projects` aborts with the fatal message containing `u`, `p`'s display
name and `p`'s github identifier.  The URLs `us2` after `u` and the records
`post` after `p` are arbitrary and do not affect the result: they are never
processed. -/
theorem claim_C2_fail_fast (pre : List Person) (p : Person) (post : List Person)
    (us1 : List String) (u : String) (us2 : List String)
    (hpre : ∀ q ∈ pre, ∀ url ∈ q.projects.getD [], (check_project url).isSome)
    (hproj : p.projects = some (us1 ++ u :: us2))
    (hus1 : ∀ v ∈ us1, (check_project v).isSome)
    (hu : check_project u = none) :
    check_projects (pre ++ p :: post) =
      .error ("Invalid project '" ++ u ++ "' by " ++ p.name ++
        " github='" ++ p.github ++ "'") := by
  have hperson : check_person_projects p (us1 ++ u :: us2) =
      .error (invalidProjectMsg p u) := check_person_projects_err hus1 hu
  have hrest : check_projects (p :: post) = .error (invalidProjectMsg p u) := by
    simp [check_projects, hproj, hperson]
  exact check_projects_prepend_err hpre hrest

/-- Concrete run of C2: a good record precedes the offender, a later URL and
a later record exist and are ignored. -/
theorem claim_C2_fail_fast_witness :
    check_projects
      [{ github := "bob", name := "Bob", projects := some ["https://github.com/bob/tool"] },
       { github := "alice", name := "Alice",
         projects := some ["https://example.com/not-a-repo", "https://github.com/later"] },
       { github := "carol", name := "Carol" }] =
      .error "Invalid project 'https://example.com/not-a-repo' by Alice github='alice'" := by
  have := claim_C2_fail_fast
    [{ github := "bob", name := "Bob", projects := some ["https://github.com/bob/tool"] }]
    { github := "alice", name := "Alice",
      projects := some ["https://example.com/not-a-repo", "https://github.com/later"] }
    [{ github := "carol", name := "Carol" }]
    [] "https://example.com/not-a-repo" ["https://github.com/later"]
    (by decide) rfl (by decide) (by decide)
  simpa using this

/-! ## Claim C3 -/

theorem char_toNat_inj {a b : Char} (h : a.toNat = b.toNat) : a = b :=
  Char.ext (UInt32.eq_of_val_eq (Fin.ext h))

theorem listLe_refl (x : List Char) : listLe x x = true := by
  induction x with
  | nil => rfl
  | cons a as ih => simp [listLe, ih]

theorem listLe_total (x y : List Char) : listLe x y = true ∨ listLe y x = true := by
  induction x generalizing y with
  | nil => exact Or.inl rfl
  | cons a as ih =>
    cases y with
    | nil => exact Or.inr rfl
    | cons b bs =>
      by_cases hab : a = b
      · subst hab
        simpa [listLe] using ih bs
      · have hv : a.toNat ≠ b.toNat := fun hv => hab (char_toNat_inj hv)
        have hba : (b == a) = false := beq_eq_false_iff_ne.mpr (Ne.symm hab)
        have hab' : (a == b) = false := beq_eq_false_iff_ne.mpr hab
        rcases Nat.lt_or_ge a.toNat b.toNat with hlt | hge
        · exact Or.inl (by simp [listLe, hab', hlt])
        · have hgt : b.toNat < a.toNat := lt_of_le_of_ne hge (Ne.symm hv)
          exact Or.inr (by simp [listLe, hba, hgt])

theorem listLe_trans {x y z : List Char}
    (hxy : listLe x y = true) (hyz : listLe y z = true) : listLe x z = true := by
  induction x generalizing y z with
  | nil => rfl
  | cons a as ih =>
    cases y with
    | nil => simp [listLe] at hxy
    | cons b bs =>
      cases z with
      | nil => simp [listLe] at hyz
      | cons c cs =>
        by_cases hab : a = b
        · subst hab
          simp only [listLe, beq_self_eq_true, if_pos] at hxy
          by_cases hac : a = c
          · subst hac
            simp only [listLe, beq_self_eq_true, if_pos] at hyz ⊢
            exact ih hxy hyz
          · have h1 : (a == c) = false := beq_eq_false_iff_ne.mpr hac
            simp only [listLe, h1, Bool.false_eq_true, if_false] at hyz ⊢
            exact hyz
        · have hab' : (a == b) = false := beq_eq_false_iff_ne.mpr hab
          simp only [listLe, hab', Bool.false_eq_true, if_false, decide_eq_true_eq] at hxy
          by_cases hbc : b = c
          · have hac : a ≠ c := hbc ▸ hab
            have hac' : (a == c) = false := beq_eq_false_iff_ne.mpr hac
            have hlt : a.toNat < c.toNat := hbc ▸ hxy
            simp [listLe, hac', hlt]
          · have hbc' : (b == c) = false := beq_eq_false_iff_ne.mpr hbc
            simp only [listLe, hbc', Bool.false_eq_true, if_false, decide_eq_true_eq] at hyz
            have hac : a.toNat < c.toNat := lt_trans hxy hyz
            have hane : a ≠ c := fun hh => by
              rw [hh] at hac
              exact lt_irrefl _ hac
            simp [listLe, beq_eq_false_iff_ne.mpr hane, hac]

instance : IsTotal TaggedPost postDesc :=
  ⟨fun a b => listLe_total b.published_at.data a.published_at.data⟩

instance : IsTrans TaggedPost postDesc :=
  ⟨fun _ _ _ hab hbc => listLe_trans hbc hab⟩

/-- C3: every successful `collect_posts` result is sorted by publish
timestamp descending: for each adjacent pair `(p1, p2)` of the output,
`p2.published_at ≤ p1.published_at` in the code-point order Python uses to
compare the timestamp strings. -/
theorem claim_C3_sorted_desc (people : List Person) (out : List TaggedPost)
    (h : collect_posts people = .ok out) :
    List.Chain' (fun p1 p2 => listLe p2.published_at.data p1.published_at.data = true) out := by
  unfold collect_posts at h
  cases htag : tag_posts people with
  | error e => rw [htag] at h; simp [Except.map] at h
  | ok flat =>
    rw [htag] at h
    simp only [Except.map, Except.ok.injEq] at h
    subst h
    exact (List.sorted_insertionSort postDesc flat).chain'

/-- A record with three posts given out of timestamp order, used to run C3. -/
def examplePerson3 : Person :=
  { github := "a", name := "A",
    posts := some [⟨"u1", "A", "2023-01-01", some none⟩,
                   ⟨"u2", "B", "2023-01-02", some none⟩,
                   ⟨"u3", "C", "2022-12-31", some none⟩] }

/-- The flat list `collect_posts` returns for `examplePerson3`. -/
def exampleOut3 : List TaggedPost :=
  [⟨"u2", "B", "", "2023-01-02", examplePerson3⟩,
   ⟨"u1", "A", "", "2023-01-01", examplePerson3⟩,
   ⟨"u3", "C", "", "2022-12-31", examplePerson3⟩]

/-- Concrete run of C3 on three posts given out of order. -/
theorem claim_C3_sorted_desc_witness :
    List.Chain' (fun p1 p2 => listLe p2.published_at.data p1.published_at.data = true)
      exampleOut3 :=
  claim_C3_sorted_desc [examplePerson3] exampleOut3 (by decide)

/-! ## Claim C4 -/

/-- A record with two posts having identical publish timestamps. -/
def tiePerson : Person :=
  { github := "a", name := "A",
    posts := some [⟨"u1", "First", "2023-05-05", some none⟩,
                   ⟨"u2", "Second", "2023-05-05", some none⟩] }

/-- The fallback object of the first tied post. -/
def tieFirst : TaggedPost := ⟨"u1", "First", "", "2023-05-05", tiePerson⟩

/-- The fallback object of the second tied post. -/
def tieSecond : TaggedPost := ⟨"u2", "Second", "", "2023-05-05", tiePerson⟩

/-- C4 counterexample: the claim predicts that two posts with identical
timestamps appear in the output in reversed input order, i.e. that the run
below returns `[tieSecond, tieFirst]`.  The code (Python's stable
`sort(reverse=True)`, which keeps equal keys in original order) returns them
in input order. -/
theorem claim_C4_counterexample :
    collect_posts [tiePerson] = .ok [tieFirst, tieSecond] ∧
    collect_posts [tiePerson] ≠ .ok [tieSecond, tieFirst] := by
  decide

theorem filter_orderedInsert_key_pos (t : String) (x : TaggedPost)
    (hx : x.published_at = t) :
    ∀ l : List TaggedPost,
      (List.orderedInsert postDesc x l).filter (fun q => q.published_at == t) =
        x :: l.filter (fun q => q.published_at == t) := by
  intro l
  induction l with
  | nil => simp [List.orderedInsert, List.filter, hx]
  | cons y ys ih =>
    by_cases hp : postDesc x y
    · simp [List.orderedInsert, hp, List.filter, hx]
    · have hyt : y.published_at ≠ t := by
        intro hy
        apply hp
        unfold postDesc
        rw [hy, hx]
        exact listLe_refl t.data
      have hyb : (y.published_at == t) = false := beq_eq_false_iff_ne.mpr hyt
      simp [List.orderedInsert, hp, List.filter, hyb, ih]

theorem filter_orderedInsert_key_neg (t : String) (x : TaggedPost)
    (hx : x.published_at ≠ t) :
    ∀ l : List TaggedPost,
      (List.orderedInsert postDesc x l).filter (fun q => q.published_at == t) =
        l.filter (fun q => q.published_at == t) := by
  intro l
  have hxb : (x.published_at == t) = false := beq_eq_false_iff_ne.mpr hx
  induction l with
  | nil => simp [List.orderedInsert, List.filter, hxb]
  | cons y ys ih =>
    by_cases hp : postDesc x y
    · simp [List.orderedInsert, hp, List.filter, hxb]
    · simp [List.orderedInsert, hp, List.filter, ih]

theorem filter_sortPosts (t : String) : ∀ l : List TaggedPost,
    (sortPosts l).filter (fun q => q.published_at == t) =
      l.filter (fun q => q.published_at == t) := by
  intro l
  induction l with
  | nil => rfl
  | cons x xs ih =>
    unfold sortPosts at ih
    show (List.insertionSort postDesc (x :: xs)).filter _ = _
    rw [List.insertionSort]
    by_cases hx : x.published_at = t
    · rw [filter_orderedInsert_key_pos t x hx]
      have hxb : (x.published_at == t) = true := beq_iff_eq.mpr hx
      simp [List.filter, hxb, ih]
    · rw [filter_orderedInsert_key_neg t x hx]
      have hxb : (x.published_at == t) = false := beq_eq_false_iff_ne.mpr hx
      simp [List.filter, hxb, ih]

/-- C4 amended: the sort is stable and ties are NOT reversed — for any
timestamp `t`, the posts of the sorted output carrying `t` are exactly the
posts of the flat input list carrying `t`, in their original input order. -/
theorem claim_C4_ties_keep_input_order (people : List Person)
    (flat : List TaggedPost) (t : String) (h : tag_posts people = .ok flat) :
    collect_posts people = .ok (sortPosts flat) ∧
    (sortPosts flat).filter (fun q => q.published_at == t) =
      flat.filter (fun q => q.published_at == t) := by
  refine ⟨?_, filter_sortPosts t flat⟩
  unfold collect_posts
  rw [h]
  rfl

/-- Concrete run of the amended C4 on the tied example. -/
theorem claim_C4_ties_keep_input_order_witness :
    collect_posts [tiePerson] = .ok (sortPosts [tieFirst, tieSecond]) ∧
    (sortPosts [tieFirst, tieSecond]).filter (fun q => q.published_at == "2023-05-05") =
      [tieFirst, tieSecond].filter (fun q => q.published_at == "2023-05-05") :=
  claim_C4_ties_keep_input_order [tiePerson] [tieFirst, tieSecond] "2023-05-05" (by decide)

/-! ## Claim C5 -/

theorem update_devto_pages_cached {fa : String → Option Article}
    {cache : List (String × Option Article)} {k : String} {v : Option Article}
    (pages : List Post) (h : cache.lookup k = some v) :
    FetchEvent.fetch k ∉ (update_devto_pages fa cache pages).2.2 ∧
    FetchEvent.sleep k ∉ (update_devto_pages fa cache pages).2.2 ∧
    (update_devto_pages fa cache pages).2.1.lookup k = some v ∧
    ∀ pg ∈ (update_devto_pages fa cache pages).1, pg.url = k → pg.details = some v := by
  induction pages generalizing cache with
  | nil => simpa [update_devto_pages] using h
  | cons page rest ih =>
    cases hc : cache.lookup page.url with
    | some w =>
      have hrec := ih h
      simp only [update_devto_pages, hc]
      refine ⟨hrec.1, hrec.2.1, hrec.2.2.1, ?_⟩
      intro pg hpg hurl
      rcases List.mem_cons.mp hpg with hpg | hpg
      · subst hpg
        have hw : w = v := by
          rw [hurl] at hc
          rw [h] at hc
          exact (Option.some.inj hc).symm
        simp [hw]
      · exact hrec.2.2.2 pg hpg hurl
    | none =>
      have hk : k ≠ page.url := by
        intro he
        rw [← he, h] at hc
        cases hc
      have h2 : (((page.url, fa page.url) :: cache).lookup k) = some v := by
        simp [List.lookup_cons, beq_eq_false_iff_ne.mpr hk, h]
      have hrec := ih h2
      simp only [update_devto_pages, hc]
      refine ⟨?_, ?_, hrec.2.2.1, ?_⟩
      · simp [List.mem_cons, hk, hrec.1]
      · simp [List.mem_cons, hk, hrec.2.1]
      · intro pg hpg hurl
        rcases List.mem_cons.mp hpg with hpg | hpg
        · subst hpg
          exact absurd hurl (Ne.symm hk)
        · exact hrec.2.2.2 pg hpg hurl

theorem update_devto_posts_cached {fa : String → Option Article}
    {cache : List (String × Option Article)} {k : String} {v : Option Article}
    (people : List Person) (h : cache.lookup k = some v) :
    FetchEvent.fetch k ∉ (update_devto_posts fa cache people).events ∧
    FetchEvent.sleep k ∉ (update_devto_posts fa cache people).events ∧
    (update_devto_posts fa cache people).cache.lookup k = some v ∧
    ∀ p ∈ (update_devto_posts fa cache people).people, ∀ pg ∈ p.posts.getD [],
      pg.url = k → pg.details = some v := by
  induction people generalizing cache with
  | nil => simpa [update_devto_posts] using h
  | cons p rest ih =>
    cases hp : p.posts with
    | none =>
      have hrec := ih h
      simp only [update_devto_posts, hp]
      refine ⟨hrec.1, hrec.2.1, hrec.2.2.1, ?_⟩
      intro q hq pg hpg
      rcases List.mem_cons.mp hq with hq | hq
      · subst hq
        rw [hp] at hpg
        simp at hpg
      · exact hrec.2.2.2 q hq pg hpg
    | some pages =>
      have hpages := @update_devto_pages_cached fa cache k v pages h
      have hrec := ih hpages.2.2.1
      simp only [update_devto_posts, hp]
      refine ⟨?_, ?_, hrec.2.2.1, ?_⟩
      · simp only [List.mem_append, not_or]
        exact ⟨hpages.1, hrec.1⟩
      · simp only [List.mem_append, not_or]
        exact ⟨hpages.2.1, hrec.2.1⟩
      · intro q hq pg hpg
        rcases List.mem_cons.mp hq with hq | hq
        · subst hq
          simp only [Option.getD_some] at hpg
          exact hpages.2.2.2 pg hpg
        · exact hrec.2.2.2 q hq pg hpg

theorem update_github_data_cached {fg : String → Option GhData}
    {cache : List (String × GhData)} {k : String} {v : GhData}
    (people : List Person) (h : cache.lookup k = some v) :
    FetchEvent.fetch k ∉ (update_github_data fg cache people).events ∧
    FetchEvent.sleep k ∉ (update_github_data fg cache people).events ∧
    (update_github_data fg cache people).cache.lookup k = some v ∧
    ∀ p ∈ (update_github_data fg cache people).people, p.github = k →
      p.gh = some v := by
  induction people generalizing cache with
  | nil => simpa [update_github_data] using h
  | cons p rest ih =>
    cases hc : cache.lookup p.github with
    | some w =>
      have hrec := ih h
      simp only [update_github_data, hc]
      refine ⟨hrec.1, hrec.2.1, hrec.2.2.1, ?_⟩
      intro q hq hgh
      rcases List.mem_cons.mp hq with hq | hq
      · subst hq
        simp only at hgh ⊢
        have hw : w = v := by
          rw [hgh] at hc
          rw [h] at hc
          exact (Option.some.inj hc).symm
        simp [hw]
      · exact hrec.2.2.2 q hq hgh
    | none =>
      have hk : k ≠ p.github := by
        intro he
        rw [← he, h] at hc
        cases hc
      cases hf : fg p.github with
      | none =>
        have hrec := ih h
        simp only [update_github_data, hc, hf]
        refine ⟨?_, ?_, hrec.2.2.1, ?_⟩
        · simp [List.mem_cons, hk, hrec.1]
        · simp [List.mem_cons, hrec.2.1]
        · intro q hq hgh
          rcases List.mem_cons.mp hq with hq | hq
          · subst hq
            exact absurd hgh (Ne.symm hk)
          · exact hrec.2.2.2 q hq hgh
      | some d =>
        have h2 : (((p.github, d) :: cache).lookup k) = some v := by
          simp [List.lookup_cons, beq_eq_false_iff_ne.mpr hk, h]
        have hrec := ih h2
        simp only [update_github_data, hc, hf]
        refine ⟨?_, ?_, hrec.2.2.1, ?_⟩
        · simp [List.mem_cons, hk, hrec.1]
        · simp [List.mem_cons, hk, hrec.2.1]
        · intro q hq hgh
          rcases List.mem_cons.mp hq with hq | hq
          · subst hq
            exact absurd hgh (Ne.symm hk)
          · exact hrec.2.2.2 q hq hgh

/-- C5: for every key already present in the loaded cache, the enrichment
pass performs no external fetch and no rate-limit pause for that key, and
attaches the cached value — to the `details` field of every post with that
URL (article enricher), respectively to the `gh` field of every record with
that github identifier (profile enricher). -/
theorem claim_C5_warm_cache_no_fetch :
    (∀ (fa : String → Option Article) cache people (k : String) v,
      cache.lookup k = some v →
        FetchEvent.fetch k ∉ (update_devto_posts fa cache people).events ∧
        FetchEvent.sleep k ∉ (update_devto_posts fa cache people).events ∧
        ∀ p ∈ (update_devto_posts fa cache people).people, ∀ pg ∈ p.posts.getD [],
          pg.url = k → pg.details = some v) ∧
    (∀ (fg : String → Option GhData) cache people (k : String) v,
      cache.lookup k = some v →
        FetchEvent.fetch k ∉ (update_github_data fg cache people).events ∧
        FetchEvent.sleep k ∉ (update_github_data fg cache people).events ∧
        ∀ p ∈ (update_github_data fg cache people).people, p.github = k →
          p.gh = some v) := by
  constructor
  · intro fa cache people k v h
    have hh := @update_devto_posts_cached fa cache k v people h
    exact ⟨hh.1, hh.2.1, hh.2.2.2⟩
  · intro fg cache people k v h
    have hh := @update_github_data_cached fg cache k v people h
    exact ⟨hh.1, hh.2.1, hh.2.2.2⟩

/-- A warm article cache entry and a warm profile cache entry, exercised
concretely: no fetch event for the cached keys, cached values attached. -/
theorem claim_C5_warm_cache_no_fetch_witness :
    (FetchEvent.fetch "https://dev.to/a/post" ∉
      (update_devto_posts (fun _ => none)
        [("https://dev.to/a/post", some ⟨"https://dev.to/a/post", "T", "d", "2023-01-01"⟩)]
        [{ github := "a", posts := some [⟨"https://dev.to/a/post", "T", "2023-01-01", none⟩] }]).events) ∧
    (FetchEvent.sleep "a" ∉
      (update_github_data (fun _ => none) [("a", "profile-blob")]
        [{ github := "a", name := "A" }]).events) :=
  ⟨(claim_C5_warm_cache_no_fetch.1 (fun _ => none)
      [("https://dev.to/a/post", some ⟨"https://dev.to/a/post", "T", "d", "2023-01-01"⟩)]
      [{ github := "a", posts := some [⟨"https://dev.to/a/post", "T", "2023-01-01", none⟩] }]
      "https://dev.to/a/post" (some ⟨"https://dev.to/a/post", "T", "d", "2023-01-01"⟩)
      (by decide)).1,
   ((claim_C5_warm_cache_no_fetch.2 (fun _ => none) [("a", "profile-blob")]
      [{ github := "a", name := "A" }] "a" "profile-blob" (by decide)).2).1⟩

/-! ## Claims C6 and C7 -/

/-- All checks `read_json_files` applies to one directory entry, as a single
boolean: either it is the skipped placeholder, or it has a `.json` extension,
an all-lowercase name, a present identifier field whose lowercased value
equals the filename stem. -/
def entryOk (e : String × RawPerson) : Bool :=
  e.1 == ".gitkeep" ||
  (strEnds e.1 ".json" && e.1 == strLower e.1 &&
    match e.2.github with
    | none => false
    | some g => strLower g == stem e.1)

theorem read_json_files_cons_gitkeep (person : RawPerson)
    (rest : List (String × RawPerson)) :
    read_json_files ((".gitkeep", person) :: rest) = read_json_files rest := by
  rw [read_json_files, if_pos rfl]

theorem read_json_files_cons_good {fname : String} {person : RawPerson}
    (hg : fname ≠ ".gitkeep") (hok : entryOk (fname, person) = true)
    (rest : List (String × RawPerson)) :
    read_json_files ((fname, person) :: rest) =
      (read_json_files rest).map (fun ps => person :: ps) := by
  have hgk : (fname == ".gitkeep") = false := beq_eq_false_iff_ne.mpr hg
  cases hgh : person.github with
  | none => simp [entryOk, hgk, hgh] at hok
  | some g =>
    simp only [entryOk, hgk, Bool.false_or, hgh, Bool.and_eq_true,
      beq_iff_eq] at hok
    rw [read_json_files, if_neg hg, if_neg (by rw [hok.1.1]; simp),
      if_neg (not_not_intro hok.1.2)]
    simp only [hgh]
    rw [if_neg (not_not_intro hok.2)]

theorem read_json_files_cons_bad {fname : String} {person : RawPerson}
    (hg : fname ≠ ".gitkeep") (hbad : entryOk (fname, person) = false)
    (rest : List (String × RawPerson)) :
    ∃ e, read_json_files ((fname, person) :: rest) = .error e := by
  by_cases h1 : strEnds fname ".json" = false
  · exact ⟨_, by rw [read_json_files, if_neg hg, if_pos h1]⟩
  · by_cases h2 : fname ≠ strLower fname
    · exact ⟨_, by rw [read_json_files, if_neg hg, if_neg h1, if_pos h2]⟩
    · cases hgh : person.github with
      | none =>
        refine ⟨"github field is missing from " ++ fname, ?_⟩
        rw [read_json_files, if_neg hg, if_neg h1, if_neg h2]
        simp [hgh]
      | some g =>
        by_cases h3 : strLower g ≠ stem fname
        · refine ⟨"value of github fields '" ++ g ++
            "' is not the same as the filename '" ++ fname ++ "'", ?_⟩
          rw [read_json_files, if_neg hg, if_neg h1, if_neg h2]
          simp only [hgh]
          rw [if_pos h3]
        · exfalso
          have hgk : (fname == ".gitkeep") = false := beq_eq_false_iff_ne.mpr hg
          have hb1 : strEnds fname ".json" = true := by
            revert h1
            cases strEnds fname ".json" <;> simp
          have hb2 : (fname == strLower fname) = true :=
            beq_iff_eq.mpr (not_not.mp h2)
          have hb3 : (strLower g == stem fname) = true :=
            beq_iff_eq.mpr (not_not.mp h3)
          simp [entryOk, hgk, hgh, hb1, hb2, hb3] at hbad

theorem read_json_files_ok_entries {entries : List (String × RawPerson)}
    {ps : List RawPerson} (h : read_json_files entries = .ok ps) :
    ∀ e ∈ entries, entryOk e = true := by
  induction entries generalizing ps with
  | nil => intro e he; cases he
  | cons ent rest ih =>
    obtain ⟨fname, person⟩ := ent
    intro e he
    by_cases hg : fname = ".gitkeep"
    · subst hg
      rw [read_json_files_cons_gitkeep] at h
      rcases List.mem_cons.mp he with he | he
      · subst he
        simp [entryOk]
      · exact ih h e he
    · by_cases hok : entryOk (fname, person) = true
      · rw [read_json_files_cons_good hg hok rest] at h
        cases hrest : read_json_files rest with
        | error e2 => rw [hrest] at h; simp [Except.map] at h
        | ok ps2 =>
          rcases List.mem_cons.mp he with he | he
          · subst he
            exact hok
          · exact ih hrest e he
      · obtain ⟨e2, he2⟩ :=
          read_json_files_cons_bad hg (Bool.eq_false_iff.mpr hok) rest
        rw [he2] at h
        cases h

theorem read_json_files_mem_ok {entries : List (String × RawPerson)}
    {ps : List RawPerson} (h : read_json_files entries = .ok ps) :
    ∀ f c, (f, c) ∈ entries → f ≠ ".gitkeep" → c ∈ ps := by
  induction entries generalizing ps with
  | nil => intro f c hc; cases hc
  | cons ent rest ih =>
    obtain ⟨fname, person⟩ := ent
    intro f c hc hne
    by_cases hg : fname = ".gitkeep"
    · subst hg
      rw [read_json_files_cons_gitkeep] at h
      rcases List.mem_cons.mp hc with he | he
      · rw [Prod.mk.injEq] at he
        exact absurd he.1 hne
      · exact ih h f c he hne
    · by_cases hok : entryOk (fname, person) = true
      · rw [read_json_files_cons_good hg hok rest] at h
        cases hrest : read_json_files rest with
        | error e2 => rw [hrest] at h; simp [Except.map] at h
        | ok ps2 =>
          rw [hrest] at h
          simp only [Except.map, Except.ok.injEq] at h
          subst h
          rcases List.mem_cons.mp hc with he | he
          · rw [Prod.mk.injEq] at he
            rw [he.2]
            exact List.mem_cons_self _ _
          · exact List.mem_cons_of_mem _ (ih hrest f c he hne)
      · obtain ⟨e2, he2⟩ :=
          read_json_files_cons_bad hg (Bool.eq_false_iff.mpr hok) rest
        rw [he2] at h
        cases h

theorem read_json_files_bad_entry {entries : List (String × RawPerson)}
    {f : String} {c : RawPerson} (hmem : (f, c) ∈ entries)
    (hbad : entryOk (f, c) = false) :
    ∃ e, read_json_files entries = .error e := by
  induction entries with
  | nil => cases hmem
  | cons ent rest ih =>
    obtain ⟨fname, person⟩ := ent
    by_cases hg : fname = ".gitkeep"
    · subst hg
      rcases List.mem_cons.mp hmem with he | he
      · exfalso
        rw [Prod.mk.injEq] at he
        rw [he.1] at hbad
        simp [entryOk] at hbad
      · obtain ⟨e, he2⟩ := ih he
        exact ⟨e, by rw [read_json_files_cons_gitkeep]; exact he2⟩
    · by_cases hok : entryOk (fname, person) = true
      · rcases List.mem_cons.mp hmem with he | he
        · exfalso
          rw [Prod.mk.injEq] at he
          rw [he.1, he.2] at hbad
          rw [hbad] at hok
          exact Bool.noConfusion hok
        · obtain ⟨e, he2⟩ := ih he
          refine ⟨e, ?_⟩
          rw [read_json_files_cons_good hg hok rest, he2]
          rfl
      · exact read_json_files_cons_bad hg (Bool.eq_false_iff.mpr hok) rest

theorem stem_append_json (s : String) : stem (s ++ ".json") = s := by
  unfold stem
  rw [String.data_append]
  have h5 : (".json".data).length = 5 := by decide
  rw [List.length_append, h5]
  simp only [Nat.add_sub_cancel]
  rw [List.take_left]

theorem append_json_ne_gitkeep (s : String) : s ++ ".json" ≠ ".gitkeep" := by
  intro h
  have hdata : s.data ++ ".json".data = ".gitkeep".data := by
    rw [← String.data_append, h]
  have hsplit : ".gitkeep".data = ['.', 'g', 'i'] ++ ['t', 'k', 'e', 'e', 'p'] := by decide
  rw [hsplit] at hdata
  have := (List.append_inj' hdata (by decide)).2
  simp at this

/-- C6: a record loaded from file `<ident>.json` has a github field whose
lowercased value equals `ident` and lands in the output; if the github field
is absent or its lowercased value differs from the filename stem, the loader
raises. -/
theorem claim_C6_identifier_matches_filename (entries : List (String × RawPerson))
    (ident : String) (c : RawPerson) (hmem : (ident ++ ".json", c) ∈ entries) :
    (∀ ps, read_json_files entries = .ok ps →
      c ∈ ps ∧ ∃ g, c.github = some g ∧ strLower g = ident) ∧
    ((c.github = none ∨ ∃ g, c.github = some g ∧ strLower g ≠ ident) →
      ∃ e, read_json_files entries = .error e) := by
  have hne : ident ++ ".json" ≠ ".gitkeep" := append_json_ne_gitkeep ident
  have hgk : ((ident ++ ".json") == ".gitkeep") = false := beq_eq_false_iff_ne.mpr hne
  constructor
  · intro ps hok
    refine ⟨read_json_files_mem_ok hok _ c hmem hne, ?_⟩
    have hok2 := read_json_files_ok_entries hok _ hmem
    cases hgh : c.github with
    | none => simp [entryOk, hgk, hgh] at hok2
    | some g =>
      simp only [entryOk, hgk, Bool.false_or, hgh, Bool.and_eq_true,
        beq_iff_eq] at hok2
      refine ⟨g, rfl, ?_⟩
      have hlow := hok2.2
      rwa [stem_append_json] at hlow
  · intro hbad
    apply read_json_files_bad_entry hmem
    rcases hbad with hnone | ⟨g, hsome, hne2⟩
    · simp [entryOk, hgk, hnone]
    · simp [entryOk, hgk, hsome, stem_append_json, hne2]

/-- Concrete run of C6: `alice.json` with github value `Alice` loads and
lowercases to the stem. -/
theorem claim_C6_identifier_matches_filename_witness :
    ({ github := some "Alice", name := "A" } : RawPerson) ∈
      [({ github := some "Alice", name := "A" } : RawPerson)] ∧
    ∃ g, ({ github := some "Alice", name := "A" } : RawPerson).github = some g ∧
      strLower g = "alice" :=
  (claim_C6_identifier_matches_filename
    [("alice.json", { github := some "Alice", name := "A" })] "alice"
    { github := some "Alice", name := "A" } (by decide)).1
    [{ github := some "Alice", name := "A" }] (by decide)

/-- C7 counterexample: the claim says the format-error message names the
offending file.  For an entry without the `.json` extension the code raises
`JsonError("file does not end with .json")`, a constant message that does not
contain the filename. -/
theorem claim_C7_counterexample :
    read_json_files [("notajson.txt", { github := some "x", name := "X" })] =
      .error "file does not end with .json" ∧
    strContains "file does not end with .json" "notajson.txt" = false := by
  decide

theorem read_json_files_prepend_err {pre rest : List (String × RawPerson)}
    {e : String} (hok : ∀ x ∈ pre, entryOk x = true)
    (herr : read_json_files rest = .error e) :
    read_json_files (pre ++ rest) = .error e := by
  induction pre with
  | nil => simpa using herr
  | cons ent pre2 ih =>
    obtain ⟨fname, person⟩ := ent
    have hrest := ih fun x hx => hok x (List.mem_cons_of_mem _ hx)
    have hent := hok _ (List.mem_cons_self _ _)
    by_cases hg : fname = ".gitkeep"
    · subst hg
      rw [List.cons_append, read_json_files_cons_gitkeep]
      exact hrest
    · rw [List.cons_append, read_json_files_cons_good hg hent (pre2 ++ rest),
        hrest]
      rfl

/-- C7 amended: any entry other than the placeholder that lacks the `.json`
extension or is not all-lowercase makes `read_json_files` fail immediately
(entries after it are irrelevant).  The lowercase-violation message names the
offending file; the missing-extension message is the constant string
`file does not end with .json`, which does not name it. -/
theorem claim_C7_bad_name_fails_fast (pre : List (String × RawPerson))
    (f : String) (c : RawPerson) (rest : List (String × RawPerson))
    (hok : ∀ x ∈ pre, entryOk x = true) (hg : f ≠ ".gitkeep") :
    (strEnds f ".json" = false →
      read_json_files (pre ++ (f, c) :: rest) =
        .error "file does not end with .json") ∧
    (strEnds f ".json" = true → f ≠ strLower f →
      read_json_files (pre ++ (f, c) :: rest) =
        .error ("filename " ++ f ++ " should be all lower-case")) := by
  constructor
  · intro h1
    apply read_json_files_prepend_err hok
    rw [read_json_files, if_neg hg, if_pos h1]
  · intro h1 h2
    apply read_json_files_prepend_err hok
    rw [read_json_files, if_neg hg, if_neg (by rw [h1]; simp), if_pos h2]

/-- Concrete run of the amended C7: a valid entry precedes `BAD.json`, whose
error message names the file; the entry after it is ignored. -/
theorem claim_C7_bad_name_fails_fast_witness :
    read_json_files
      [("ok.json", { github := some "ok", name := "O" }),
       ("BAD.json", { github := some "bad", name := "B" }),
       ("later.json", { github := some "later", name := "L" })] =
      .error "filename BAD.json should be all lower-case" :=
  (claim_C7_bad_name_fails_fast
    [("ok.json", { github := some "ok", name := "O" })] "BAD.json"
    { github := some "bad", name := "B" }
    [("later.json", { github := some "later", name := "L" })]
    (by decide) (by decide)).2 (by decide) (by decide)

/-! ## Claim C8 -/

/-- A text segment containing no tag-opening character and no newline (the
shape of heading text and of the plain HTML between tags). -/
def plainSeg (s : String) : Prop := ∀ c ∈ s.data, c ≠ '<' ∧ c ≠ '\n'

instance (s : String) : Decidable (plainSeg s) :=
  inferInstanceAs (Decidable (∀ c ∈ s.data, c ≠ '<' ∧ c ≠ '\n'))

theorem findClose_plain {t : List Char} (h : ∀ c ∈ t, c ≠ '<' ∧ c ≠ '\n')
    (rest : List Char) : findClose (t ++ (closeH1 ++ rest)) = some rest := by
  have hc : closeH1 = ['<', '/', 'h', '1', '>'] := by decide
  induction t with
  | nil =>
    simp only [List.nil_append]
    rw [hc]
    simp [findClose, listLeads, hc]
  | cons a t ih =>
    have ha := h a (List.mem_cons_self a t)
    have h2 := ih fun c hc2 => h c (List.mem_cons_of_mem a hc2)
    have hlt : ('<' == a) = false := beq_eq_false_iff_ne.mpr (Ne.symm ha.1)
    have hnl : (a == '\n') = false := beq_eq_false_iff_ne.mpr ha.2
    have h2b : findClose (t ++ '<' :: '/' :: 'h' :: '1' :: '>' :: rest) = some rest := by
      simpa [hc] using h2
    simp only [List.cons_append]
    rw [findClose]
    simp [hc, listLeads, hlt, hnl, h2b]

theorem subH1_nil : subH1 [] = [] := by
  simp [subH1]

theorem subH1_cons_neg {c : Char} {cs : List Char}
    (hcond : listLeads openH1 (c :: cs) = false) :
    subH1 (c :: cs) = c :: subH1 cs := by
  rw [subH1]
  simp [hcond]

theorem subH1_cons_close {c : Char} {cs rest : List Char}
    (hcond : listLeads openH1 (c :: cs) = true)
    (hfind : findClose (List.drop 4 (c :: cs)) = some rest) :
    subH1 (c :: cs) = subH1 rest := by
  rw [subH1]
  simp only [hcond, if_true]
  split
  · rename_i r hr
    rw [hfind] at hr
    rw [Option.some.inj hr]
  · rename_i hr
    rw [hfind] at hr
    cases hr

theorem subH1_plain {s : List Char} (h : ∀ c ∈ s, c ≠ '<') (rest : List Char) :
    subH1 (s ++ rest) = s ++ subH1 rest := by
  induction s with
  | nil => simp
  | cons a s ih =>
    have ha := h a (List.mem_cons_self a s)
    have h2 := ih fun c hc2 => h c (List.mem_cons_of_mem a hc2)
    have hlt : ('<' == a) = false := beq_eq_false_iff_ne.mpr (Ne.symm ha)
    have hcond : listLeads openH1 (a :: (s ++ rest)) = false := by
      have ho : openH1 = ['<', 'h', '1', '>'] := by decide
      simp [ho, listLeads, hlt]
    rw [List.cons_append, subH1_cons_neg hcond, h2]
    exact (List.cons_append a s (subH1 rest)).symm

theorem subH1_self (s : List Char) (h : ∀ c ∈ s, c ≠ '<') : subH1 s = s := by
  have := subH1_plain h []
  simpa [subH1_nil] using this

theorem subH1_remove {t : List Char} (h : ∀ c ∈ t, c ≠ '<' ∧ c ≠ '\n')
    (rest : List Char) :
    subH1 (openH1 ++ (t ++ (closeH1 ++ rest))) = subH1 rest := by
  have ho : openH1 = ['<', 'h', '1', '>'] := by decide
  rw [ho]
  simp only [List.cons_append, List.nil_append]
  apply subH1_cons_close
  · simp [listLeads, ho]
  · simp only [List.drop_succ_cons, List.drop_zero]
    exact findClose_plain h rest

theorem subH1_h2open (rest : List Char) :
    subH1 (openH2 ++ rest) = openH2 ++ subH1 rest := by
  have ho : openH2 = ['<', 'h', '2', '>'] := by decide
  rw [ho]
  simp only [List.cons_append, List.nil_append]
  have hcond : listLeads openH1 ('<' :: 'h' :: '2' :: '>' :: rest) = false := by
    have ho1 : openH1 = ['<', 'h', '1', '>'] := by decide
    simp [ho1, listLeads]
  rw [subH1_cons_neg hcond]
  have hplain : ∀ c ∈ ['h', '2', '>'], c ≠ '<' := by decide
  have := subH1_plain hplain rest
  simpa using this

theorem subH2_nil : subH2 [] = [] := by
  simp [subH2]

theorem subH2_cons_neg {c : Char} {cs : List Char}
    (hcond : listLeads openH2 (c :: cs) = false) :
    subH2 (c :: cs) = c :: subH2 cs := by
  rw [subH2]
  simp [hcond]

theorem subH2_tag (rest : List Char) :
    subH2 (openH2 ++ rest) = h2Repl ++ subH2 rest := by
  have ho : openH2 = ['<', 'h', '2', '>'] := by decide
  rw [ho]
  simp only [List.cons_append, List.nil_append]
  rw [subH2]
  have hcond : listLeads openH2 ('<' :: 'h' :: '2' :: '>' :: rest) = true := by
    simp [ho, listLeads]
  simp [hcond]

theorem subH2_plain {s : List Char} (h : ∀ c ∈ s, c ≠ '<') (rest : List Char) :
    subH2 (s ++ rest) = s ++ subH2 rest := by
  induction s with
  | nil => simp
  | cons a s ih =>
    have ha := h a (List.mem_cons_self a s)
    have h2 := ih fun c hc2 => h c (List.mem_cons_of_mem a hc2)
    have hlt : ('<' == a) = false := beq_eq_false_iff_ne.mpr (Ne.symm ha)
    have hcond : listLeads openH2 (a :: (s ++ rest)) = false := by
      have ho : openH2 = ['<', 'h', '2', '>'] := by decide
      simp [ho, listLeads, hlt]
    rw [List.cons_append, subH2_cons_neg hcond, h2]
    exact (List.cons_append a s (subH2 rest)).symm

theorem subH2_self (s : List Char) (h : ∀ c ∈ s, c ≠ '<') : subH2 s = s := by
  have := subH2_plain h []
  simpa [subH2_nil] using this

theorem transform_two_h1_two_h2 {t1 t2 s1 s2 s3 : List Char}
    (h1 : ∀ c ∈ t1, c ≠ '<' ∧ c ≠ '\n') (h2 : ∀ c ∈ t2, c ≠ '<' ∧ c ≠ '\n')
    (hs1 : ∀ c ∈ s1, c ≠ '<') (hs2 : ∀ c ∈ s2, c ≠ '<')
    (hs3 : ∀ c ∈ s3, c ≠ '<') :
    subH2 (subH1 (openH1 ++ (t1 ++ (closeH1 ++ (s1 ++ (openH2 ++ (s2 ++
        (openH1 ++ (t2 ++ (closeH1 ++ (openH2 ++ s3))))))))))) =
      s1 ++ (h2Repl ++ (s2 ++ (h2Repl ++ s3))) := by
  rw [subH1_remove h1, subH1_plain hs1, subH1_h2open, subH1_plain hs2,
    subH1_remove h2, subH1_h2open, subH1_self s3 hs3]
  rw [subH2_plain hs1, subH2_tag, subH2_plain hs2, subH2_tag,
    subH2_self s3 hs3]

/-- C8 counterexample: the claim says only the first top-level heading is
removed.  `re.sub` with no count argument removes every `<h1>…</h1>` match:
on input with two h1 headings the second one is gone from the output too. -/
theorem claim_C8_counterexample :
    readme_transform "<h1>a</h1>X<h1>b</h1>" = "X" ∧
    strContains (readme_transform "<h1>a</h1>X<h1>b</h1>") "<h1>b</h1>" = false := by
  have hval : readme_transform "<h1>a</h1>X<h1>b</h1>" = "X" := by
    simp [readme_transform, subH1, subH2, findClose, listLeads, openH1, closeH1,
      openH2, h2Repl]
  refine ⟨hval, ?_⟩
  rw [hval]
  decide

/-- C8 amended: the transform removes EVERY `<h1>…</h1>` heading that opens
and closes without an intervening newline — not only the first — and adds
`class="title"` to every literal `<h2>` tag.  (The Markdown parsing itself,
with table support, happens in the external converter before this pass.) -/
theorem claim_C8_every_h1_removed (t1 t2 s1 s2 s3 : String)
    (h1 : plainSeg t1) (h2 : plainSeg t2) (hs1 : plainSeg s1)
    (hs2 : plainSeg s2) (hs3 : plainSeg s3) :
    readme_transform ("<h1>" ++ t1 ++ "</h1>" ++ s1 ++ "<h2>" ++ s2 ++
        "<h1>" ++ t2 ++ "</h1>" ++ "<h2>" ++ s3) =
      s1 ++ "<h2 class=\"title\">" ++ s2 ++ "<h2 class=\"title\">" ++ s3 := by
  unfold readme_transform
  refine congrArg String.mk ?_
  have hlist := @transform_two_h1_two_h2 t1.data t2.data s1.data s2.data s3.data
    h1 h2 (fun c hc => (hs1 c hc).1) (fun c hc => (hs2 c hc).1)
    (fun c hc => (hs3 c hc).1)
  simpa [String.data_append, List.append_assoc, openH1, closeH1, openH2,
    h2Repl] using hlist

/-- Concrete run of the amended C8: both headings removed, both second-level
headings tagged. -/
theorem claim_C8_every_h1_removed_witness :
    readme_transform ("<h1>" ++ "Title" ++ "</h1>" ++ "intro" ++ "<h2>" ++
        "One" ++ "<h1>" ++ "Again" ++ "</h1>" ++ "<h2>" ++ "Two") =
      "intro" ++ "<h2 class=\"title\">" ++ "One" ++ "<h2 class=\"title\">" ++ "Two" :=
  claim_C8_every_h1_removed "Title" "Again" "intro" "One" "Two"
    (by decide) (by decide) (by decide) (by decide) (by decide)

/-! ## Claim C9 -/

/-- C9: when the profile lookup reports "not found" (falsy) for an uncached
identifier, the run does not fail: the record is passed through unchanged
(no `gh` field attached), no pause happens (only the fetch event is traced),
and processing continues with the remaining records against the same cache. -/
theorem claim_C9_not_found_skips (fg : String → Option GhData)
    (cache : List (String × GhData)) (p : Person) (rest : List Person)
    (h1 : cache.lookup p.github = none) (h2 : fg p.github = none) :
    update_github_data fg cache (p :: rest) =
      ⟨p :: (update_github_data fg cache rest).people,
       (update_github_data fg cache rest).cache,
       .fetch p.github :: (update_github_data fg cache rest).events⟩ := by
  simp [update_github_data, h1, h2]

/-- Concrete run of C9: the lookup misses and the fetcher reports not-found;
the record survives unchanged and the next record is still processed. -/
theorem claim_C9_not_found_skips_witness :
    update_github_data (fun _ => none) []
      [{ github := "ghost", name := "G" }, { github := "next", name := "N" }] =
      ⟨[{ github := "ghost", name := "G" }, { github := "next", name := "N" }],
       [], [.fetch "ghost", .fetch "next"]⟩ := by
  have hstep := claim_C9_not_found_skips (fun _ => none) []
    { github := "ghost", name := "G" } [{ github := "next", name := "N" }]
    (by decide) rfl
  rw [hstep]
  decide

/-! ## Claim C10 -/

theorem tag_posts_person_missing_details {p : Person} {posts : List Post}
    (h : ∃ post ∈ posts, post.details = none) :
    tag_posts_person p posts = .error keyErrorDetails := by
  induction posts with
  | nil => obtain ⟨post, hmem, _⟩ := h; cases hmem
  | cons post rest ih =>
    obtain ⟨q, hmem, hq⟩ := h
    rcases List.mem_cons.mp hmem with he | he
    · subst he
      rw [tag_posts_person]
      simp only [hq]
    · cases hd : post.details with
      | none =>
        rw [tag_posts_person]
        simp only [hd]
      | some d =>
        have hrec := ih ⟨q, he, hq⟩
        rw [tag_posts_person]
        cases d with
        | none => simp only [hd, hrec, Except.map]
        | some art => simp only [hd, hrec, Except.map]

theorem tag_posts_person_total {p : Person} {posts : List Post}
    (h : ∀ post ∈ posts, post.details ≠ none) :
    ∃ l, tag_posts_person p posts = .ok l := by
  induction posts with
  | nil => exact ⟨[], rfl⟩
  | cons post rest ih =>
    obtain ⟨l, hl⟩ := ih fun q hq => h q (List.mem_cons_of_mem post hq)
    cases hd : post.details with
    | none => exact absurd hd (h post (List.mem_cons_self post rest))
    | some d =>
      cases d with
      | none =>
        exact ⟨⟨post.url, post.title, "", post.published_at, p⟩ :: l, by
          rw [tag_posts_person]; simp only [hd, hl, Except.map]⟩
      | some art =>
        exact ⟨⟨art.url, art.title, art.description, art.published_at, p⟩ :: l, by
          rw [tag_posts_person]; simp only [hd, hl, Except.map]⟩

theorem tag_posts_person_error_eq {p : Person} {posts : List Post} {e : String}
    (h : tag_posts_person p posts = .error e) : e = keyErrorDetails := by
  induction posts generalizing e with
  | nil => cases h
  | cons post rest ih =>
    cases hd : post.details with
    | none =>
      rw [tag_posts_person] at h
      simp only [hd] at h
      exact (Except.error.inj h).symm
    | some d =>
      cases hrec : tag_posts_person p rest with
      | error e2 =>
        have he2 : e2 = keyErrorDetails := ih hrec
        rw [tag_posts_person] at h
        cases d with
        | none =>
          simp only [hd, hrec, Except.map] at h
          exact (Except.error.inj h) ▸ he2
        | some art =>
          simp only [hd, hrec, Except.map] at h
          exact (Except.error.inj h) ▸ he2
      | ok l =>
        rw [tag_posts_person] at h
        cases d with
        | none =>
          simp only [hd, hrec, Except.map] at h
          exact Except.noConfusion h
        | some art =>
          simp only [hd, hrec, Except.map] at h
          exact Except.noConfusion h

theorem tag_posts_missing_details {people : List Person}
    (h : ∃ p ∈ people, ∃ post ∈ p.posts.getD [], post.details = none) :
    tag_posts people = .error keyErrorDetails := by
  induction people with
  | nil => obtain ⟨p, hmem, _⟩ := h; cases hmem
  | cons p rest ih =>
    obtain ⟨q, hmem, post, hpost, hd⟩ := h
    rcases List.mem_cons.mp hmem with he | he
    · subst he
      cases hp : q.posts with
      | none => rw [hp] at hpost; cases hpost
      | some posts =>
        rw [hp] at hpost
        simp only [Option.getD_some] at hpost
        rw [tag_posts]
        simp only [hp, tag_posts_person_missing_details ⟨post, hpost, hd⟩]
    · have hrest := ih ⟨q, he, post, hpost, hd⟩
      cases hp : p.posts with
      | none =>
        rw [tag_posts]
        simp only [hp]
        exact hrest
      | some posts =>
        rw [tag_posts]
        cases hper : tag_posts_person p posts with
        | error e =>
          have hee : e = keyErrorDetails := tag_posts_person_error_eq hper
          subst hee
          simp only [hp, hper]
        | ok l =>
          simp only [hp, hper, hrest]

theorem tag_posts_total {people : List Person}
    (h : ∀ p ∈ people, ∀ post ∈ p.posts.getD [], post.details ≠ none) :
    ∃ l, tag_posts people = .ok l := by
  induction people with
  | nil => exact ⟨[], rfl⟩
  | cons p rest ih =>
    obtain ⟨l2, hl2⟩ := ih fun q hq => h q (List.mem_cons_of_mem p hq)
    cases hp : p.posts with
    | none => exact ⟨l2, by rw [tag_posts]; simp only [hp]; exact hl2⟩
    | some posts =>
      have hall : ∀ post ∈ posts, post.details ≠ none := by
        intro post hpost
        have := h p (List.mem_cons_self p rest) post
        rw [hp] at this
        exact this hpost
      obtain ⟨l1, hl1⟩ := tag_posts_person_total (p := p) hall
      exact ⟨l1 ++ l2, by rw [tag_posts]; simp only [hp, hl1, hl2]⟩

theorem update_devto_pages_details_set (fa : String → Option Article)
    (cache : List (String × Option Article)) (pages : List Post) :
    ∀ pg ∈ (update_devto_pages fa cache pages).1, pg.details ≠ none := by
  induction pages generalizing cache with
  | nil => intro pg hpg; cases hpg
  | cons page rest ih =>
    intro pg hpg
    cases hc : cache.lookup page.url with
    | some v =>
      simp only [update_devto_pages, hc] at hpg
      rcases List.mem_cons.mp hpg with he | he
      · subst he; simp
      · exact ih cache pg he
    | none =>
      simp only [update_devto_pages, hc] at hpg
      rcases List.mem_cons.mp hpg with he | he
      · subst he; simp
      · exact ih ((page.url, fa page.url) :: cache) pg he

/-- C10: `collect_posts` reads `post['details']` unconditionally —
(1) if any post of any record lacks the `details` key, it raises a key-lookup
error instead of taking the fallback branch; (2) it is total when every post
has a `details` key; and (3) `update_devto_posts` establishes that
precondition: every post of every record it returns has `details` set. -/
theorem claim_C10_details_key_required :
    (∀ people : List Person,
      (∃ p ∈ people, ∃ post ∈ p.posts.getD [], post.details = none) →
        collect_posts people = .error keyErrorDetails) ∧
    (∀ people : List Person,
      (∀ p ∈ people, ∀ post ∈ p.posts.getD [], post.details ≠ none) →
        ∃ out, collect_posts people = .ok out) ∧
    (∀ (fa : String → Option Article) cache people,
      ∀ p ∈ (update_devto_posts fa cache people).people,
        ∀ pg ∈ p.posts.getD [], pg.details ≠ none) := by
  refine ⟨?_, ?_, ?_⟩
  · intro people h
    unfold collect_posts
    rw [tag_posts_missing_details h]
    rfl
  · intro people h
    obtain ⟨l, hl⟩ := tag_posts_total h
    exact ⟨sortPosts l, by unfold collect_posts; rw [hl]; rfl⟩
  · intro fa cache people
    induction people generalizing cache with
    | nil => intro p hp; cases hp
    | cons q rest ih =>
      intro p hp
      cases hq : q.posts with
      | none =>
        simp only [update_devto_posts, hq] at hp
        rcases List.mem_cons.mp hp with he | he
        · subst he
          intro pg hpg
          rw [hq] at hpg
          cases hpg
        · exact ih cache p he
      | some pages =>
        simp only [update_devto_posts, hq] at hp
        rcases List.mem_cons.mp hp with he | he
        · subst he
          intro pg hpg
          simp only [Option.getD_some] at hpg
          exact update_devto_pages_details_set fa cache pages pg hpg
        · exact ih (update_devto_pages fa cache pages).2.1 p he

/-- Concrete run of C10, part (1): a post without a `details` key makes
`collect_posts` raise the key-lookup error even though another post is fine. -/
theorem claim_C10_details_key_required_witness :
    collect_posts
      [{ github := "a", name := "A",
         posts := some [⟨"u1", "T", "2023-01-01", some none⟩,
                        ⟨"u2", "U", "2023-01-02", none⟩] }] =
      .error keyErrorDetails :=
  claim_C10_details_key_required.1
    [{ github := "a", name := "A",
       posts := some [⟨"u1", "T", "2023-01-01", some none⟩,
                      ⟨"u2", "U", "2023-01-02", none⟩] }]
    (by decide)

end OsdcGen
